import Mathlib

/-!
Verification development for the thesis-project data-integrity audit engine.

The Python source is shallowly embedded: each definition below transcribes one
Python function or method, keeping its name where Lean allows it.  The
cryptographic hash `compute_sha3_hash` (SHA3-256 hexdigest of a UTF-8 string)
is abstracted as an explicit parameter `H : String → String`: every structural
property of the tree / prover / verifier code is independent of the hash
internals, and theorems quantify over `H`.  Closed evaluations instantiate `H`
with the concrete function `hashId` (any computable function works, since the
evaluated behaviour never inspects hash output values).

Python lists of hex digests become `List String`; Python `int` becomes `ℕ`/`ℤ`;
code that can raise (`IndexError`, `ValueError`) returns `Option`/`Except`.
-/

/-- Concrete stand-in used to evaluate the embedding on closed inputs.  The
source's `compute_sha3_hash` is a fixed function `String → String`; the
behaviours checked on `hashId` (index errors, empty-path returns, constraint
bookkeeping) do not depend on which function is used. -/
def hashId (s : String) : String := s

/-! ## Merkle tree builders

`MerkleTree._build_tree` (src/0_generate_dataset/generate_blocks_commitments.py,
lines 30-51) pairs `current_level[i]` with `current_level[i + 1]`
unconditionally, so an odd-length level raises `IndexError`: embedded as the
`Option`-valued `nextLevelM`.  `StandaloneMerkleTree._build_tree`
(src/standalone_audit.py, lines 55-74) falls back to `current_level[i]` when
`i + 1` is out of range, duplicating the odd trailing node: embedded as the
total `nextLevelS`.  Both store the level list root-first
(`tree.insert(0, next_level)`), leaves last. -/

/-- One bottom-up level of `StandaloneMerkleTree._build_tree`:
`right = current_level[i + 1] if i + 1 < len(current_level) else current_level[i]`. -/
def nextLevelS (H : String → String) : List String → List String
  | [] => []
  | [a] => [H (a ++ a)]
  | a :: b :: rest => H (a ++ b) :: nextLevelS H rest

/-- One bottom-up level of `MerkleTree._build_tree`:
`right = current_level[i + 1]` with no bounds check — `none` models the
`IndexError` on an odd-length level. -/
def nextLevelM (H : String → String) : List String → Option (List String)
  | [] => some []
  | [_] => none
  | a :: b :: rest => (nextLevelM H rest).map fun l => H (a ++ b) :: l

theorem nextLevelS_length (H : String → String) :
    ∀ l : List String, (nextLevelS H l).length = (l.length + 1) / 2
  | [] => rfl
  | [_] => by simp [nextLevelS]
  | _ :: _ :: rest => by
      simp [nextLevelS, nextLevelS_length H rest]; omega

theorem nextLevelM_length (H : String → String) :
    ∀ l nxt : List String, nextLevelM H l = some nxt → 2 * nxt.length = l.length
  | [], nxt, h => by
      simp only [nextLevelM, Option.some.injEq] at h
      subst h; rfl
  | [_], nxt, h => by simp [nextLevelM] at h
  | a :: b :: rest, nxt, h => by
      simp only [nextLevelM, Option.map_eq_some'] at h
      obtain ⟨l', hl', rfl⟩ := h
      have := nextLevelM_length H rest l' hl'
      simp only [List.length_cons]
      omega

/-- If the unchecked pairing succeeds it agrees with the padding variant
(an even-length level never takes the duplication branch). -/
theorem nextLevelM_eq_S (H : String → String) :
    ∀ l nxt : List String, nextLevelM H l = some nxt → nextLevelS H l = nxt
  | [], nxt, h => by
      simp only [nextLevelM, Option.some.injEq] at h
      subst h; rfl
  | [_], nxt, h => by simp [nextLevelM] at h
  | a :: b :: rest, nxt, h => by
      simp only [nextLevelM, Option.map_eq_some'] at h
      obtain ⟨l', hl', rfl⟩ := h
      simp [nextLevelS, nextLevelM_eq_S H rest l' hl']

/-- An even-length level never reads past the end, so the unchecked pairing
succeeds. -/
theorem nextLevelM_of_even (H : String → String) :
    ∀ l : List String, l.length % 2 = 0 → nextLevelM H l = some (nextLevelS H l)
  | [], _ => rfl
  | [_], h => by simp at h
  | a :: b :: rest, h => by
      have hrest : rest.length % 2 = 0 := by simp at h; omega
      simp [nextLevelM, nextLevelS, nextLevelM_of_even H rest hrest]

/-- The `while len(current_level) > 1` loop of `StandaloneMerkleTree._build_tree`,
accumulating levels root-first (`tree.insert(0, next_level)`). -/
def buildFromS (H : String → String) (cur : List String) : List (List String) :=
  if cur.length ≤ 1 then [cur]
  else buildFromS H (nextLevelS H cur) ++ [cur]
  termination_by cur.length
  decreasing_by simp [nextLevelS_length]; omega

/-- The `while len(current_level) > 1` loop of `MerkleTree._build_tree`;
`none` propagates the `IndexError` raised on an odd-length level. -/
def buildFromM (H : String → String) (cur : List String) : Option (List (List String)) :=
  if h0 : cur.length ≤ 1 then some [cur]
  else
    match h : nextLevelM H cur with
    | none => none
    | some nxt => (buildFromM H nxt).map fun t => t ++ [cur]
  termination_by cur.length
  decreasing_by
    have := nextLevelM_length H cur nxt h
    omega

/-- Method `StandaloneMerkleTree._build_tree(leaves)`: `if not leaves: return []`. -/
def standaloneBuildTree (H : String → String) (leaves : List String) : List (List String) :=
  if leaves = [] then [] else buildFromS H leaves

/-- Method `MerkleTree._build_tree(leaves)`: `if not leaves: return []`. -/
def merkleBuildTree (H : String → String) (leaves : List String) : Option (List (List String)) :=
  if leaves = [] then some [] else buildFromM H leaves

/-! ## Authentication paths

`MerkleTree.get_authentication_path_hashes` (generate_blocks_commitments.py,
lines 53-78) and `StandaloneMerkleTree.get_authentication_path`
(standalone_audit.py, lines 82-103) are textually the same algorithm: walk
`for level in range(len(self.tree) - 1, 0, -1)` — i.e. the levels from the
leaves up to the children of the root, which is the list `(tree.drop 1).reverse`
of the root-first level list — take the sibling `current_index ± 1`, append it
when it exists, and halve the index. -/

/-- The level walk shared by both path extractors.  The list argument holds the
levels bottom-up, leaves first, root level excluded. -/
def authPathLoop : List (List String) → ℕ → List String
  | [], _ => []
  | nodes :: rest, current_index =>
      let sibling_index :=
        if current_index % 2 = 0 then current_index + 1 else current_index - 1
      if sibling_index < nodes.length then
        nodes.getD sibling_index "" :: authPathLoop rest (current_index / 2)
      else
        authPathLoop rest (current_index / 2)

/-- Method `MerkleTree.get_authentication_path_hashes(leaf_index)`; `tree` and
`leaf_count` are the object state set by `__init__`.  Out-of-range indices
return `[]` (`if leaf_index >= self.leaf_count or not self.tree: return []`). -/
def get_authentication_path_hashes
    (tree : List (List String)) (leaf_count leaf_index : ℕ) : List String :=
  if leaf_count ≤ leaf_index ∨ tree = [] then []
  else authPathLoop (tree.drop 1).reverse leaf_index

/-- Method `StandaloneMerkleTree.get_authentication_path(leaf_index)`: same guard and
walk as the `MerkleTree` variant. -/
def get_authentication_path
    (tree : List (List String)) (leaf_count leaf_index : ℕ) : List String :=
  if leaf_count ≤ leaf_index ∨ tree = [] then []
  else authPathLoop (tree.drop 1).reverse leaf_index

/-! ## Path verification (src/verification/verify_blocks.py, lines 21-67) -/

/-- The recombination loop of `verify_merkle_path`: fold the authentication
path over the current hash, concatenating `current + sibling` when the index is
even (current is a left child) and `sibling + current` otherwise, halving the
index each level. -/
def recombine (H : String → String) : String → ℕ → List String → String
  | current_hash, _, [] => current_hash
  | current_hash, current_index, sibling_hash :: rest =>
      let parent_input :=
        if current_index % 2 = 0 then current_hash ++ sibling_hash
        else sibling_hash ++ current_hash
      recombine H (H parent_input) (current_index / 2) rest

/-- Function `verify_merkle_path(leaf_hash, leaf_index, auth_path, expected_root)`:
recombine upward and compare with the expected root. -/
def verify_merkle_path (H : String → String) (leaf_hash : String) (leaf_index : ℕ)
    (auth_path : List String) (expected_root : String) : Bool :=
  recombine H leaf_hash leaf_index auth_path == expected_root

/-! ## STARK-style prover (src/verification/stark_prove.py)

The execution trace is a Python list of dicts whose first entry (the
`initialize` step) lacks the combine fields; it is embedded as an initial
hash/index pair plus a list of complete combine steps.  Wall-clock fields
(`timestamp`, the `time.sleep` simulation) are not modelled. -/

/-- One `hash_combine` entry of the execution trace (stark_prove.py lines
97-106).  `current_index` is the value the Python code records — the index
*before* the `current_index // 2` update on line 110. -/
structure CombineStep where
  step : ℕ
  current_hash : String
  current_index : ℕ
  sibling_hash : String
  is_left_child : Bool
  parent_hash : String
  parent_input : String
deriving Repr, DecidableEq

/-- The execution trace: the step-0 `initialize` entry plus the combine steps. -/
structure ExecTrace where
  initHash : String
  initIndex : ℕ
  steps : List CombineStep
deriving Repr, DecidableEq

/-- The loop body of `generate_execution_trace` (lines 86-110): record the
pre-update hash and index, then advance with `current_hash = parent_hash`,
`current_index = current_index // 2`. -/
def traceLoop (H : String → String) :
    String → ℕ → ℕ → List String → List CombineStep
  | _, _, _, [] => []
  | current_hash, current_index, level, sibling_hash :: rest =>
      let is_left_child := current_index % 2 = 0
      let parent_input :=
        if is_left_child then current_hash ++ sibling_hash
        else sibling_hash ++ current_hash
      let parent_hash := H parent_input
      { step := level + 1
        current_hash := current_hash
        current_index := current_index
        sibling_hash := sibling_hash
        is_left_child := is_left_child
        parent_hash := parent_hash
        parent_input := parent_input } ::
        traceLoop H parent_hash (current_index / 2) (level + 1) rest

/-- Method `MerkleSTARKProver.generate_execution_trace(leaf_hash, auth_path, leaf_index)`. -/
def generate_execution_trace (H : String → String)
    (leaf_hash : String) (auth_path : List String) (leaf_index : ℕ) : ExecTrace :=
  ⟨leaf_hash, leaf_index, traceLoop H leaf_hash leaf_index 0 auth_path⟩

/-- One arithmetic constraint record (stark_prove.py lines 133-162); only the
fields the rest of the pipeline reads are kept (`type`, `step`, `satisfied`—
the inputs being compared are recomputed from the trace in `constraintsLoop`). -/
structure StarkConstraint where
  ctype : String
  step : ℕ
  satisfied : Bool
deriving Repr, DecidableEq

/-- The loop of `generate_constraints` (lines 123-162): for each trace entry
beyond step 0 emit the `hash_correctness`, `index_progression` and
`child_position` constraints.  Of the previous entry only `current_index` is
read. -/
def constraintsLoop : ℕ → ℕ → List CombineStep → List StarkConstraint
  | _, _, [] => []
  | prev_index, i, s :: rest =>
      { ctype := "hash_correctness", step := i
        satisfied :=
          (if s.is_left_child then s.current_hash ++ s.sibling_hash
           else s.sibling_hash ++ s.current_hash) == s.parent_input } ::
      { ctype := "index_progression", step := i
        satisfied := prev_index / 2 == s.current_index } ::
      { ctype := "child_position", step := i
        satisfied := decide (prev_index % 2 = 0) == s.is_left_child } ::
      constraintsLoop s.current_index (i + 1) rest

/-- Method `MerkleSTARKProver.generate_constraints(trace)`. -/
def generate_constraints (t : ExecTrace) : List StarkConstraint :=
  constraintsLoop t.initIndex 1 t.steps

/-- The two `ValueError`s `generate_proof` can raise: the pre-root constraint
check (line 189, carrying `len(unsatisfied)`) and the final root comparison
(line 220). -/
inductive ProveError where
  | constraintViolation : ℕ → ProveError
  | rootMismatch : ProveError
deriving Repr, DecidableEq

/-- Record `proof_data` assembled on lines 201-215 (static protocol metadata
plus trace and constraints). -/
structure ProofData where
  execution_trace : ExecTrace
  constraints : List StarkConstraint
  security_level : ℕ
  trace_length : ℕ
  constraint_count : ℕ
  field_size : ℕ
  blowup_factor : ℕ
  num_queries : ℕ
  fri_layers : ℕ
  merkle_root_commitments : List String
deriving Repr, DecidableEq

/-- Structure `SimpleSTARKProof` (lines 18-42) without the wall-clock `timestamp`. -/
structure SimpleSTARKProof where
  leaf_hash : String
  auth_path : List String
  root_hash : String
  leaf_index : ℕ
  proof_data : ProofData
deriving Repr, DecidableEq

/-- Method `MerkleSTARKProver.generate_proof(leaf_hash, auth_path, leaf_index,
expected_root)` (lines 166-222).  `security_level` is the constructor state
(`128` at every call site).  The unsatisfied-constraint check runs before the
root comparison, exactly as in the source; the final hash is
`trace[-1]['parent_hash'] if len(trace) > 1 else leaf_hash`. -/
def generate_proof (H : String → String) (security_level : ℕ)
    (leaf_hash : String) (auth_path : List String) (leaf_index : ℕ)
    (expected_root : String) : Except ProveError SimpleSTARKProof :=
  let trace := generate_execution_trace H leaf_hash auth_path leaf_index
  let constraints := generate_constraints trace
  let unsatisfied := constraints.filter fun c => !c.satisfied
  if unsatisfied.length ≠ 0 then
    .error (.constraintViolation unsatisfied.length)
  else
    let proof_data : ProofData :=
      { execution_trace := trace
        constraints := constraints
        security_level := security_level
        trace_length := trace.steps.length + 1
        constraint_count := constraints.length
        field_size := 2 ^ 64
        blowup_factor := 8
        num_queries := 32
        fri_layers := 6
        merkle_root_commitments :=
          [H "commitment_0", H "commitment_1", H "commitment_2"] }
    let final_hash :=
      match trace.steps.getLast? with
      | some s => s.parent_hash
      | none => leaf_hash
    if final_hash ≠ expected_root then .error .rootMismatch
    else .ok ⟨leaf_hash, auth_path, expected_root, leaf_index, proof_data⟩

/-! ## Random block selector (src/random_block_selector.py)

`calculate_sample_size` uses float `math.log`; it is idealised over `ℝ` with
`Real.log`, and `math.log`'s `ValueError: math domain error` on a non-positive
argument is modelled by the `Except` wrapper `mathLog`.  The SHA-256 seed
derivation and the per-counter hash draw are abstracted: `sha256 : String → σ`
models `hashlib.sha256(seed_data).digest()` and `prng : σ → ℕ → ℕ` models
`int.from_bytes(sha256(seed || counter_as_4_big_endian_bytes)[:4], 'big')`. -/

/-- The `ValueError`s reachable from `calculate_sample_size`: the two explicit
argument checks (lines 53-57) and `math.log`'s domain error. -/
inductive SampleError where
  | configurationError : String → SampleError
  | mathDomainError : SampleError
deriving Repr, DecidableEq

/-- Python's `math.log`: raises `ValueError` on a non-positive argument. -/
noncomputable def mathLog (x : ℝ) : Except SampleError ℝ :=
  if x ≤ 0 then .error .mathDomainError else .ok (Real.log x)

/-- Method `RandomBlockSelector.calculate_sample_size(total_blocks, corruption_rate)`
(lines 36-73).  `confidence_level` is the constructor state.  Note the source
validates only `corruption_rate` and `total_blocks`; the confidence level is
never checked. -/
noncomputable def calculate_sample_size (confidence_level : ℝ)
    (total_blocks : ℤ) (corruption_rate : ℝ) : Except SampleError ℤ :=
  if corruption_rate ≤ 0 ∨ 1 ≤ corruption_rate then
    .error (.configurationError "Corruption rate must be between 0 and 1")
  else if total_blocks ≤ 0 then
    .error (.configurationError "Total blocks must be positive")
  else do
    let fail_prob := 1 - confidence_level
    let log_fail ← mathLog fail_prob
    let log_corr ← mathLog (1 - corruption_rate)
    let theoretical_min := log_fail / log_corr
    let min_sample_size : ℤ := ⌈theoretical_min⌉
    let sample_size := min min_sample_size total_blocks
    pure (if total_blocks < 10 then max sample_size (min 3 total_blocks) else sample_size)

/-- Method `RandomBlockSelector.generate_cryptographic_seed(user_id, upload_id,
audit_timestamp)` (lines 75-97): SHA-256 of `f"{user_id}|{upload_id}|{audit_timestamp}"`. -/
def generate_cryptographic_seed {σ : Type} (sha256 : String → σ)
    (user_id upload_id audit_timestamp : String) : σ :=
  sha256 (user_id ++ "|" ++ upload_id ++ "|" ++ audit_timestamp)

/-- The `while len(selected_indices) < sample_size` loop of
`select_random_blocks` (lines 124-145), with `rnd counter` standing for the
hash-derived 32-bit draw at that counter.  The loop increments `counter` every
iteration and breaks once `counter > total_blocks * 10`, so it runs at most
`total_blocks * 10 + 1` times; `fuel` is initialised to exactly that bound by
`select_indices`, which makes the `fuel = 0` arm unreachable (theorem
`selectGo_fuel_irrelevant`) while keeping the definition structurally
recursive. -/
def selectGo (rnd : ℕ → ℕ) (total_blocks sample_size : ℕ) :
    ℕ → ℕ → Finset ℕ → Finset ℕ
  | 0, _, selected => selected
  | fuel + 1, counter, selected =>
      if selected.card < sample_size then
        let block_index := rnd counter % total_blocks
        let selected := insert block_index selected
        if counter + 1 > total_blocks * 10 then selected
        else selectGo rnd total_blocks sample_size fuel (counter + 1) selected
      else selected

/-- The selection loop of `select_random_blocks` followed by
`return sorted(list(selected_indices))`. -/
def select_indices (rnd : ℕ → ℕ) (total_blocks sample_size : ℕ) : List ℕ :=
  (selectGo rnd total_blocks sample_size (total_blocks * 10 + 1) 0 ∅).sort (· ≤ ·)

/-- Method `RandomBlockSelector.select_random_blocks(total_blocks, user_id, upload_id,
corruption_rate, audit_timestamp)` (lines 99-147): compute the sample size,
derive the seed, then run the deterministic hash-counter loop.  The modulus and
loop bound use `total_blocks` itself; the `Int.toNat` coercions are exact
because the sample-size call has already rejected `total_blocks ≤ 0`, and a
returned sample size is never negative on the paths that reach the loop. -/
noncomputable def select_random_blocks {σ : Type} (sha256 : String → σ)
    (prng : σ → ℕ → ℕ) (confidence_level : ℝ) (total_blocks : ℤ)
    (user_id upload_id : String) (corruption_rate : ℝ)
    (audit_timestamp : String) : Except SampleError (List ℕ) := do
  let sample_size ← calculate_sample_size confidence_level total_blocks corruption_rate
  let seed := generate_cryptographic_seed sha256 user_id upload_id audit_timestamp
  pure (select_indices (prng seed) total_blocks.toNat sample_size.toNat)

/-! ## Structural lemmas about the tree builders and the path walk -/

/-- The sibling index `current_index ± 1` computed by the path walk is the
current index with its lowest bit flipped. -/
theorem xor_one_eq (n : ℕ) : n ^^^ 1 = if n % 2 = 0 then n + 1 else n - 1 := by
  apply Nat.eq_of_testBit_eq
  intro i
  rw [Nat.testBit_xor]
  cases i with
  | zero =>
    rw [Nat.testBit_zero, Nat.testBit_zero, Nat.testBit_zero]
    rcases Nat.even_or_odd n with h | h <;>
      · obtain ⟨m, hm⟩ := h
        subst hm
        split <;> simp_all <;> omega
  | succ j =>
    rw [Nat.testBit_succ, Nat.testBit_succ, Nat.testBit_succ]
    have h2 : (1 : ℕ) / 2 = 0 := by norm_num
    rw [h2, Nat.zero_testBit, Bool.xor_false]
    have h3 : (if n % 2 = 0 then n + 1 else n - 1) / 2 = n / 2 := by
      split <;> omega
    rw [h3]

/-- Entry `i` of a padded level is the hash of the pair below it. -/
theorem nextLevelS_getD (H : String → String) :
    ∀ (l : List String) (i : ℕ), 2 * i + 1 < l.length →
      (nextLevelS H l).getD i "" = H (l.getD (2 * i) "" ++ l.getD (2 * i + 1) "")
  | [], i, h => by simp at h
  | [a], i, h => by simp at h
  | a :: b :: rest, 0, h => by simp [nextLevelS]
  | a :: b :: rest, i + 1, h => by
      have h' : 2 * i + 1 < rest.length := by
        simp only [List.length_cons] at h; omega
      have ih := nextLevelS_getD H rest i h'
      have e2 : 2 * (i + 1) = 2 * i + 1 + 1 := by omega
      rw [e2]
      simp only [nextLevelS, List.getD_cons_succ]
      exact ih

theorem buildFromS_ne_nil (H : String → String) (cur : List String) :
    buildFromS H cur ≠ [] := by
  rw [buildFromS]
  split
  · simp
  · simp

/-- On `2 ^ k` leaves the level list below the root, read bottom-up, is the
`k`-fold iteration of `nextLevelS`, and the top level is the `k`-th iterate. -/
theorem buildFromS_shape (H : String → String) :
    ∀ (k : ℕ) (l : List String), l.length = 2 ^ k →
      ((buildFromS H l).drop 1).reverse
          = (List.range k).map (fun j => (nextLevelS H)^[j] l)
        ∧ (buildFromS H l).getD 0 [] = (nextLevelS H)^[k] l := by
  intro k
  induction k with
  | zero =>
    intro l hl
    rw [buildFromS, if_pos (by omega)]
    simp
  | succ k ih =>
    intro l hl
    have hlen2 : 2 ≤ l.length := by
      rw [hl]; have := Nat.one_lt_two_pow_iff.mpr (Nat.succ_ne_zero k); omega
    have hnext : (nextLevelS H l).length = 2 ^ k := by
      rw [nextLevelS_length, hl, pow_succ]; omega
    obtain ⟨ih1, ih2⟩ := ih (nextLevelS H l) hnext
    rw [buildFromS, if_neg (by omega)]
    rcases hB : buildFromS H (nextLevelS H l) with _ | ⟨b, bs⟩
    · exact absurd hB (buildFromS_ne_nil H _)
    constructor
    · rw [hB] at ih1
      simp only [List.drop_succ_cons, List.drop_zero] at ih1
      simp only [List.cons_append, List.drop_succ_cons, List.drop_zero]
      rw [List.reverse_append, List.reverse_cons, List.reverse_nil, List.nil_append,
        List.singleton_append, List.range_succ_eq_map]
      simp only [List.map_cons, Function.iterate_zero_apply, List.map_map]
      rw [ih1]
      congr 1
    · rw [hB] at ih2
      simp only [List.cons_append, List.getD_cons_zero] at *
      rw [ih2, Function.iterate_succ_apply]

theorem getD_map_range {α : Type} (d : α) (f : ℕ → α) (k j : ℕ) (h : j < k) :
    ((List.range k).map f).getD j d = f j := by
  rw [List.getD_eq_getElem _ _ (by simpa using h)]
  rw [List.getElem_map, List.getElem_range]

/-- Walking the bottom-up levels of a `2 ^ k`-leaf tree from leaf index
`i < 2 ^ k` collects exactly the sibling `(i / 2 ^ j) ^^^ 1` of each level:
under the power-of-two invariant the sibling bound check never fails. -/
theorem authPathLoop_spec (H : String → String) :
    ∀ (k : ℕ) (l : List String) (i : ℕ), l.length = 2 ^ k → i < 2 ^ k →
      authPathLoop ((List.range k).map fun j => (nextLevelS H)^[j] l) i
        = (List.range k).map fun j => ((nextLevelS H)^[j] l).getD ((i / 2 ^ j) ^^^ 1) "" := by
  intro k
  induction k with
  | zero => intro l i hl hi; rfl
  | succ k ih =>
    intro l i hl hi
    have hnext : (nextLevelS H l).length = 2 ^ k := by
      rw [nextLevelS_length, hl, pow_succ]; omega
    have hi2 : i / 2 < 2 ^ k := by
      rw [pow_succ] at hi; omega
    rw [List.range_succ_eq_map, List.map_cons, List.map_cons]
    have hsib : (if i % 2 = 0 then i + 1 else i - 1) < l.length := by
      rw [hl, pow_succ]
      rcases Nat.even_or_odd i with he | ho
      · obtain ⟨m, hm⟩ := he
        rw [pow_succ] at hi
        split <;> omega
      · obtain ⟨m, hm⟩ := ho
        rw [pow_succ] at hi
        split <;> omega
    simp only [authPathLoop, Function.iterate_zero_apply]
    rw [if_pos hsib]
    congr 1
    · rw [pow_zero, Nat.div_one, xor_one_eq]
    · rw [List.map_map, List.map_map]
      have hmap : (List.range k).map ((fun j => (nextLevelS H)^[j] l) ∘ Nat.succ)
          = (List.range k).map fun j => (nextLevelS H)^[j] (nextLevelS H l) := by
        congr 1
      rw [hmap, ih (nextLevelS H l) (i / 2) hnext hi2]
      congr 1
      funext j
      simp only [Function.comp_apply]
      rw [Function.iterate_succ_apply]
      congr 2
      rw [pow_succ, Nat.div_div_eq_div_mul]
      ring_nf

/-- Recombining leaf `i` of a `2 ^ k`-leaf tree along the sibling hashes of
each level reproduces the single node of the top level. -/
theorem recombine_spec (H : String → String) :
    ∀ (k : ℕ) (l : List String) (i : ℕ), l.length = 2 ^ k → i < 2 ^ k →
      recombine H (l.getD i "") i
          ((List.range k).map fun j => ((nextLevelS H)^[j] l).getD ((i / 2 ^ j) ^^^ 1) "")
        = ((nextLevelS H)^[k] l).getD 0 "" := by
  intro k
  induction k with
  | zero =>
    intro l i hl hi
    interval_cases i
    rfl
  | succ k ih =>
    intro l i hl hi
    have hnext : (nextLevelS H l).length = 2 ^ k := by
      rw [nextLevelS_length, hl, pow_succ]; omega
    have hi2 : i / 2 < 2 ^ k := by
      rw [pow_succ] at hi; omega
    rw [List.range_succ_eq_map, List.map_cons]
    simp only [recombine, pow_zero, Nat.div_one]
    have hpair : 2 * (i / 2) + 1 < l.length := by
      rw [hl, pow_succ]
      rcases Nat.even_or_odd i with he | ho
      · obtain ⟨m, hm⟩ := he; rw [pow_succ] at hi; omega
      · obtain ⟨m, hm⟩ := ho; rw [pow_succ] at hi; omega
    have hcombine :
        (if i % 2 = 0 then l.getD i "" ++ ((nextLevelS H)^[0] l).getD (i ^^^ 1) ""
         else ((nextLevelS H)^[0] l).getD (i ^^^ 1) "" ++ l.getD i "")
          = l.getD (2 * (i / 2)) "" ++ l.getD (2 * (i / 2) + 1) "" := by
      rw [Function.iterate_zero_apply, xor_one_eq]
      rcases Nat.even_or_odd i with he | ho
      · obtain ⟨m, hm⟩ := he
        have h0 : i % 2 = 0 := by omega
        rw [if_pos h0, if_pos h0]
        have e1 : 2 * (i / 2) = i := by omega
        rw [e1]
      · obtain ⟨m, hm⟩ := ho
        have h0 : ¬ i % 2 = 0 := by omega
        rw [if_neg h0, if_neg h0]
        have e1 : 2 * (i / 2) = i - 1 := by omega
        rw [e1]
        have e3 : i - 1 + 1 = i := by omega
        rw [e3]
    rw [hcombine, ← nextLevelS_getD H l (i / 2) hpair]
    have hmap : (List.range k).map
          ((fun j => ((nextLevelS H)^[j] l).getD (i / 2 ^ j ^^^ 1) "") ∘ Nat.succ)
        = (List.range k).map
            fun j => ((nextLevelS H)^[j] (nextLevelS H l)).getD ((i / 2) / 2 ^ j ^^^ 1) "" := by
      congr 1
      funext j
      simp only [Function.comp_apply]
      rw [Function.iterate_succ_apply]
      congr 2
      rw [pow_succ, Nat.div_div_eq_div_mul]
      ring_nf
    rw [List.map_map, hmap, ih (nextLevelS H l) (i / 2) hnext hi2,
      Function.iterate_succ_apply]

/-- On a power-of-two leaf count every level is even, so the unchecked
`MerkleTree` build succeeds and agrees with the standalone build. -/
theorem buildFromM_pow (H : String → String) :
    ∀ (k : ℕ) (l : List String), l.length = 2 ^ k →
      buildFromM H l = some (buildFromS H l) := by
  intro k
  induction k with
  | zero =>
    intro l hl
    rw [buildFromM, buildFromS]
    rw [dif_pos (by omega), if_pos (by omega)]
  | succ k ih =>
    intro l hl
    have hlen2 : 2 ≤ l.length := by
      rw [hl]; have := Nat.one_lt_two_pow_iff.mpr (Nat.succ_ne_zero k); omega
    have heven : l.length % 2 = 0 := by
      rw [hl, pow_succ]; omega
    have hnext : (nextLevelS H l).length = 2 ^ k := by
      rw [nextLevelS_length, hl, pow_succ]; omega
    rw [buildFromM, buildFromS]
    rw [dif_neg (by omega), if_neg (by omega)]
    split
    · next heq =>
        rw [nextLevelM_of_even H l heven] at heq
        exact absurd heq (by simp)
    · next nxt heq =>
        rw [nextLevelM_of_even H l heven] at heq
        obtain rfl : nextLevelS H l = nxt := Option.some.inj heq
        rw [ih (nextLevelS H l) hnext]
        rfl

/-- Whenever the unchecked `MerkleTree` build returns a tree at all, the
standalone build returns the same tree (the duplication branch was never
taken). -/
theorem buildFromM_some_eq (H : String → String) :
    ∀ (n : ℕ) (l : List String), l.length ≤ n →
      ∀ t, buildFromM H l = some t → buildFromS H l = t := by
  intro n
  induction n with
  | zero =>
    intro l hn t ht
    rw [buildFromM, dif_pos (by omega)] at ht
    rw [buildFromS, if_pos (by omega)]
    exact Option.some.inj ht
  | succ n ih =>
    intro l hn t ht
    by_cases h1 : l.length ≤ 1
    · rw [buildFromM, dif_pos h1] at ht
      rw [buildFromS, if_pos h1]
      exact Option.some.inj ht
    · rw [buildFromM, dif_neg h1] at ht
      split at ht
      · exact absurd ht (by simp)
      · next nxt heq =>
          rw [buildFromS, if_neg h1, nextLevelM_eq_S H l nxt heq]
          rw [Option.map_eq_some'] at ht
          obtain ⟨t', ht', rfl⟩ := ht
          have hlen : nxt.length ≤ n := by
            have := nextLevelM_length H l nxt heq
            omega
          rw [ih nxt hlen t' ht']

/-! ## Lemmas about sample-size computation and the selection loop -/

/-- The theoretical minimum sample size at confidence 0.95 against corruption
rate 0.05: `ceil(ln(1/20) / ln(19/20)) = 59`, reduced to the integer facts
`20^57 < 19^58` and `19^59 ≤ 20^58`. -/
theorem ceil_ratio : ⌈Real.log ((1:ℝ)/20) / Real.log ((19:ℝ)/20)⌉ = (59 : ℤ) := by
  have h20 : Real.log ((1:ℝ)/20) = -Real.log 20 := by
    rw [one_div, Real.log_inv]
  have h19 : Real.log ((19:ℝ)/20) = Real.log 19 - Real.log 20 :=
    Real.log_div (by norm_num) (by norm_num)
  have hratio : Real.log ((1:ℝ)/20) / Real.log ((19:ℝ)/20)
      = Real.log 20 / (Real.log 20 - Real.log 19) := by
    rw [h20, h19]
    rw [show Real.log 19 - Real.log 20 = -(Real.log 20 - Real.log 19) by ring]
    rw [neg_div_neg_eq]
  have hd : (0:ℝ) < Real.log 20 - Real.log 19 :=
    sub_pos.mpr (Real.log_lt_log (by norm_num) (by norm_num))
  have hdiv : Real.log 20 - Real.log 19 = Real.log ((20:ℝ)/19) :=
    (Real.log_div (by norm_num) (by norm_num)).symm
  rw [hratio, Int.ceil_eq_iff]
  constructor
  · rw [show ((59:ℤ):ℝ) - 1 = 58 by norm_num]
    rw [lt_div_iff hd]
    have h58 : (58:ℝ) * (Real.log 20 - Real.log 19) = Real.log (((20:ℝ)/19) ^ (58:ℕ)) := by
      rw [Real.log_pow, hdiv]
      push_cast
      ring
    rw [h58]
    rw [Real.log_lt_log_iff (by positivity) (by norm_num)]
    rw [div_pow, div_lt_iff (by positivity)]
    norm_num
  · rw [div_le_iff hd]
    have h59 : ((59:ℤ):ℝ) * (Real.log 20 - Real.log 19) = Real.log (((20:ℝ)/19) ^ (59:ℕ)) := by
      rw [Real.log_pow, hdiv]
      push_cast
      ring
    rw [h59]
    rw [Real.log_le_log_iff (by norm_num) (by positivity)]
    rw [div_pow, le_div_iff (by positivity)]
    norm_num

/-- Each iteration inserts at most one index, and the loop is entered only
while the set is below the target size, so the set never exceeds it. -/
theorem selectGo_card (rnd : ℕ → ℕ) (tb sample : ℕ) :
    ∀ (fuel counter : ℕ) (sel : Finset ℕ), sel.card ≤ sample →
      (selectGo rnd tb sample fuel counter sel).card ≤ sample
  | 0, _, sel, h => h
  | fuel + 1, counter, sel, h => by
      simp only [selectGo]
      split
      · next hlt =>
          have hins : (insert (rnd counter % tb) sel).card ≤ sample :=
            le_trans (Finset.card_insert_le _ _) (by omega)
          split
          · exact hins
          · exact selectGo_card rnd tb sample fuel (counter + 1) _ hins
      · exact h

/-- Every inserted index is a residue mod `total_blocks`. -/
theorem selectGo_mem_lt (rnd : ℕ → ℕ) (tb sample : ℕ) (htb : 0 < tb) :
    ∀ (fuel counter : ℕ) (sel : Finset ℕ), (∀ x ∈ sel, x < tb) →
      ∀ x ∈ selectGo rnd tb sample fuel counter sel, x < tb
  | 0, _, sel, h => h
  | fuel + 1, counter, sel, h => by
      simp only [selectGo]
      have hins : ∀ x ∈ insert (rnd counter % tb) sel, x < tb := by
        intro x hx
        rcases Finset.mem_insert.mp hx with rfl | hx
        · exact Nat.mod_lt _ htb
        · exact h x hx
      split
      · split
        · exact hins
        · exact selectGo_mem_lt rnd tb sample htb fuel (counter + 1) _ hins
      · exact h

/-- The loop returns immediately once the set has reached the target size. -/
theorem selectGo_stop (rnd : ℕ → ℕ) (tb sample : ℕ) (fuel counter : ℕ) (sel : Finset ℕ)
    (h : sample ≤ sel.card) : selectGo rnd tb sample fuel counter sel = sel := by
  cases fuel with
  | zero => rfl
  | succ fuel =>
      simp only [selectGo]
      rw [if_neg (by omega)]

/-- From any reachable loop state (`counter ≤ total_blocks * 10`), any fuel of
at least `total_blocks * 10 + 1 - counter` iterations gives the same result:
the `counter > total_blocks * 10` break fires before the fuel can run out, so
the fuelled recursion computes the Python `while` loop, which terminates. -/
theorem selectGo_fuel_agnostic (rnd : ℕ → ℕ) (tb sample : ℕ) :
    ∀ (f1 f2 counter : ℕ) (sel : Finset ℕ), counter ≤ tb * 10 →
      tb * 10 + 1 ≤ counter + f1 → tb * 10 + 1 ≤ counter + f2 →
      selectGo rnd tb sample f1 counter sel = selectGo rnd tb sample f2 counter sel
  | 0, f2, counter, sel, hc, h1, h2 => by omega
  | f1 + 1, 0, counter, sel, hc, h1, h2 => by omega
  | f1 + 1, f2 + 1, counter, sel, hc, h1, h2 => by
      simp only [selectGo]
      split
      · split
        · rfl
        · next hbreak =>
            exact selectGo_fuel_agnostic rnd tb sample f1 f2 (counter + 1) _
              (by omega) (by omega) (by omega)
      · rfl

/-! ## Remaining helper lemmas -/

theorem traceLoop_length (H : String → String) :
    ∀ (cur : String) (idx level : ℕ) (path : List String),
      (traceLoop H cur idx level path).length = path.length
  | _, _, _, [] => rfl
  | cur, idx, level, s :: rest => by
      simp only [traceLoop, List.length_cons]
      rw [traceLoop_length H _ _ _ rest]

theorem constraintsLoop_length :
    ∀ (prev_index i : ℕ) (steps : List CombineStep),
      (constraintsLoop prev_index i steps).length = 3 * steps.length
  | _, _, [] => rfl
  | prev_index, i, s :: rest => by
      simp only [constraintsLoop, List.length_cons]
      rw [constraintsLoop_length s.current_index (i + 1) rest]
      omega

/-- General shape of `calculate_sample_size` on arguments that reach the
arithmetic: the raw `ceil(log/log)` value clamped by `total_blocks` and, for
small datasets, floored at `min 3 total_blocks`. -/
theorem calculate_sample_size_valid (confidence_level corruption_rate : ℝ)
    (total_blocks : ℤ) (h1 : 0 < corruption_rate) (h2 : corruption_rate < 1)
    (h3 : 0 < total_blocks) (h4 : confidence_level < 1) :
    calculate_sample_size confidence_level total_blocks corruption_rate
      = .ok (if total_blocks < 10 then
              max (min ⌈Real.log (1 - confidence_level) / Real.log (1 - corruption_rate)⌉
                    total_blocks)
                  (min 3 total_blocks)
             else
              min ⌈Real.log (1 - confidence_level) / Real.log (1 - corruption_rate)⌉
                total_blocks) := by
  rw [calculate_sample_size]
  rw [if_neg (by push_neg; constructor <;> linarith), if_neg (by omega)]
  simp only [mathLog]
  rw [if_neg (by linarith), if_neg (by linarith)]
  rfl

/-- The concrete proof object produced by the prover on the only succeeding
shape of input (leaf index 0), used to witness the proof invariants. -/
def c10Proof : SimpleSTARKProof :=
  ⟨"a", ["b"], "ab", 0,
    ⟨⟨"a", 0, [⟨1, "a", 0, "b", true, "ab", "ab"⟩]⟩,
      [⟨"hash_correctness", 1, true⟩, ⟨"index_progression", 1, true⟩,
        ⟨"child_position", 1, true⟩],
      128, 2, 3, 2 ^ 64, 8, 32, 6,
      ["commitment_0", "commitment_1", "commitment_2"]⟩⟩

/-! ## Claims -/

/-- C1.  The claim says: for every Merkle tree on a power-of-two number of
leaves and every valid leaf index `i`, `generate_proof(leaves[i], path(i), i,
root)` succeeds and verification accepts.  The code cannot do this: the trace
records `current_index` before the `// 2` update, while its own
`index_progression` constraint demands `prev_index // 2 == current_index`, so
step 1 is unsatisfied whenever `leaf_index ≥ 1` and `generate_proof` raises
`Constraints not satisfied` (for any hash function, any security level and any
expected root).  Here the 2-leaf tree with leaves `["a", "b"]`: index 1 is
valid, its authentication path is `["a"]`, yet proof generation fails with a
constraint violation before any root comparison or verification can happen. -/
theorem generate_proof_fails_on_index_one (H : String → String)
    (security_level : ℕ) (root : String) :
    merkleBuildTree H ["a", "b"] = some [[H ("a" ++ "b")], ["a", "b"]]
    ∧ get_authentication_path_hashes [[H ("a" ++ "b")], ["a", "b"]] 2 1 = ["a"]
    ∧ generate_proof H security_level "b" ["a"] 1 root
        = .error (.constraintViolation 1) := by
  refine ⟨?_, rfl, by with_unfolding_all rfl⟩
  simp [merkleBuildTree, buildFromM, nextLevelM]

/-- C2.  The claim says: mutating any single character of the leaf hash
(keeping path, index and committed root) always yields `RootMismatch`, never
another failure kind.  For leaf index 1 of the 2-leaf tree `["a", "b"]`
(path `["a"]`, committed root `H "ab"`), mutating the leaf `"b"` into `"c"`
makes `generate_proof` fail with the `ConstraintViolation` error instead: the
same pre-update index recording that breaks C1 trips the `index_progression`
constraint before the root is ever compared, for every hash function. -/
theorem generate_proof_mutated_leaf_constraint_violation (H : String → String)
    (security_level : ℕ) :
    generate_proof H security_level "c" ["a"] 1 (H ("a" ++ "b"))
        = .error (.constraintViolation 1)
    ∧ ∀ e, ProveError.constraintViolation 1 ≠ ProveError.rootMismatch ∧
        generate_proof H security_level "c" ["a"] 1 (H ("a" ++ "b")) ≠ .ok e := by
  have h1 : generate_proof H security_level "c" ["a"] 1 (H ("a" ++ "b"))
      = .error (.constraintViolation 1) := by with_unfolding_all rfl
  refine ⟨h1, fun e => ⟨by simp, by rw [h1]; simp⟩⟩

/-- C3.  For a tree built by `MerkleTree._build_tree` from `2 ^ k` leaves and
any leaf index `i < 2 ^ k`: the build succeeds, the authentication path has
length `k`, its element at each level `j` is the node at sibling index
`(i / 2 ^ j) ^^^ 1` of that level (levels read bottom-up, leaves first), and
`verify_merkle_path` recombines the leaf to the tree's root and returns
`true`. -/
theorem merkle_tree_auth_path_correct (H : String → String) (k i : ℕ)
    (leaves : List String) (hlen : leaves.length = 2 ^ k) (hi : i < 2 ^ k) :
    ∃ t, merkleBuildTree H leaves = some t
      ∧ (get_authentication_path_hashes t leaves.length i).length = k
      ∧ (∀ j, j < k → (get_authentication_path_hashes t leaves.length i).getD j ""
          = (((t.drop 1).reverse).getD j []).getD ((i / 2 ^ j) ^^^ 1) "")
      ∧ verify_merkle_path H (leaves.getD i "") i
          (get_authentication_path_hashes t leaves.length i)
          ((t.getD 0 []).getD 0 "") = true := by
  have hne : leaves ≠ [] := by
    intro hcon
    rw [hcon] at hlen
    have := Nat.one_le_two_pow (n := k)
    simp at hlen
    omega
  have hipos : i < leaves.length := by rw [hlen]; exact hi
  obtain ⟨hsh1, hsh2⟩ := buildFromS_shape H k leaves hlen
  have hpath : get_authentication_path_hashes (buildFromS H leaves) leaves.length i
      = (List.range k).map fun j => ((nextLevelS H)^[j] leaves).getD ((i / 2 ^ j) ^^^ 1) "" := by
    rw [get_authentication_path_hashes,
      if_neg (by push_neg; exact ⟨by omega, buildFromS_ne_nil H leaves⟩)]
    rw [hsh1, authPathLoop_spec H k leaves i hlen hi]
  refine ⟨buildFromS H leaves, ?_, ?_, ?_, ?_⟩
  · rw [merkleBuildTree, if_neg hne, buildFromM_pow H k leaves hlen]
  · rw [hpath, List.length_map, List.length_range]
  · intro j hj
    rw [hpath, getD_map_range "" _ k j hj, hsh1, getD_map_range [] _ k j hj]
  · rw [hpath, verify_merkle_path, recombine_spec H k leaves i hlen hi, hsh2]
    exact beq_self_eq_true _

/-- Witness for C3 at the 4-leaf tree over `["a", "b", "c", "d"]`, leaf 2. -/
theorem merkle_tree_auth_path_correct_witness :
    (["a", "b", "c", "d"].length = 2 ^ 2 ∧ 2 < 2 ^ 2)
    ∧ ∃ t, merkleBuildTree hashId ["a", "b", "c", "d"] = some t
      ∧ (get_authentication_path_hashes t ["a", "b", "c", "d"].length 2).length = 2
      ∧ (∀ j, j < 2 → (get_authentication_path_hashes t ["a", "b", "c", "d"].length 2).getD j ""
          = (((t.drop 1).reverse).getD j []).getD ((2 / 2 ^ j) ^^^ 1) "")
      ∧ verify_merkle_path hashId (["a", "b", "c", "d"].getD 2 "") 2
          (get_authentication_path_hashes t ["a", "b", "c", "d"].length 2)
          ((t.getD 0 []).getD 0 "") = true :=
  ⟨⟨by decide, by decide⟩,
    merkle_tree_auth_path_correct hashId 2 2 ["a", "b", "c", "d"] (by decide) (by decide)⟩

/-- C4.  Function `calculate_sample_size` returns
`ceil(ln(1 - confidence) / ln(1 - corruption_rate))` clamped above by
`total_blocks` and, when `total_blocks < 10`, floored at
`min 3 total_blocks`; in particular at `(total_blocks, confidence,
corruption_rate) = (16, 0.95, 0.05)` the raw value is 59 and the clamped
result is exactly 16. -/
theorem calculate_sample_size_formula (confidence_level corruption_rate : ℝ)
    (total_blocks : ℤ) (h1 : 0 < corruption_rate) (h2 : corruption_rate < 1)
    (h3 : 0 < total_blocks) (h4 : confidence_level < 1) :
    calculate_sample_size confidence_level total_blocks corruption_rate
      = .ok (if total_blocks < 10 then
              max (min ⌈Real.log (1 - confidence_level) / Real.log (1 - corruption_rate)⌉
                    total_blocks)
                  (min 3 total_blocks)
             else
              min ⌈Real.log (1 - confidence_level) / Real.log (1 - corruption_rate)⌉
                total_blocks)
    ∧ ⌈Real.log (1 - (95:ℝ)/100) / Real.log (1 - (5:ℝ)/100)⌉ = (59:ℤ)
    ∧ calculate_sample_size ((95:ℝ)/100) 16 ((5:ℝ)/100) = .ok 16 := by
  have hceil : ⌈Real.log (1 - (95:ℝ)/100) / Real.log (1 - (5:ℝ)/100)⌉ = (59:ℤ) := by
    rw [show (1:ℝ) - 95/100 = 1/20 by norm_num, show (1:ℝ) - 5/100 = 19/20 by norm_num]
    exact ceil_ratio
  refine ⟨calculate_sample_size_valid _ _ _ h1 h2 h3 h4, hceil, ?_⟩
  rw [calculate_sample_size_valid ((95:ℝ)/100) ((5:ℝ)/100) 16
    (by norm_num) (by norm_num) (by norm_num) (by norm_num)]
  rw [if_neg (by omega), hceil]
  norm_num

/-- Witness for C4 at the spec's own instance. -/
theorem calculate_sample_size_formula_witness :
    ((0:ℝ) < 5/100 ∧ (5:ℝ)/100 < 1 ∧ (0:ℤ) < 16 ∧ (95:ℝ)/100 < 1)
    ∧ calculate_sample_size ((95:ℝ)/100) 16 ((5:ℝ)/100) = .ok 16 :=
  ⟨⟨by norm_num, by norm_num, by norm_num, by norm_num⟩,
    (calculate_sample_size_formula ((95:ℝ)/100) ((5:ℝ)/100) 16
      (by norm_num) (by norm_num) (by norm_num) (by norm_num)).2.2⟩

/-- C5 counterexample.  The claim says the two builders produce the same level
structure and root on every leaf sequence, including non-power-of-two lengths.
On three leaves they do not: `MerkleTree._build_tree` reads `current_level[i+1]`
past the end of the odd level and dies with `IndexError` (`none`), while
`StandaloneMerkleTree._build_tree` duplicates the trailing leaf and returns a
tree. -/
theorem tree_builders_disagree_on_three_leaves :
    merkleBuildTree hashId ["a", "b", "c"] = none
    ∧ standaloneBuildTree hashId ["a", "b", "c"]
        = [["abcc"], ["ab", "cc"], ["a", "b", "c"]] := by
  constructor
  · simp [merkleBuildTree, buildFromM, nextLevelM]
  · simp [standaloneBuildTree, buildFromS, nextLevelS, hashId]

/-- C5 amended.  Whenever `MerkleTree._build_tree` succeeds at all — exactly
the power-of-two leaf counts, plus the trivial sequences — the standalone
builder produces the identical level structure (hence the identical root);
on other lengths the former raises `IndexError` while the latter pads, so no
uniform rule spans both. -/
theorem tree_builders_agree_when_merkle_succeeds (H : String → String)
    (leaves : List String) (t : List (List String))
    (h : merkleBuildTree H leaves = some t) :
    standaloneBuildTree H leaves = t := by
  rw [merkleBuildTree] at h
  rw [standaloneBuildTree]
  by_cases hn : leaves = []
  · rw [if_pos hn] at h ⊢
    exact (Option.some.inj h)
  · rw [if_neg hn] at h ⊢
    exact buildFromM_some_eq H leaves.length leaves le_rfl t h

/-- Witness for the amended C5 on the 2-leaf tree. -/
theorem tree_builders_agree_when_merkle_succeeds_witness :
    merkleBuildTree hashId ["a", "b"] = some [["ab"], ["a", "b"]]
    ∧ standaloneBuildTree hashId ["a", "b"] = [["ab"], ["a", "b"]] := by
  have hm : merkleBuildTree hashId ["a", "b"] = some [["ab"], ["a", "b"]] := by
    simp [merkleBuildTree, buildFromM, nextLevelM, hashId]
  exact ⟨hm, tree_builders_agree_when_merkle_succeeds hashId ["a", "b"] _ hm⟩

/-- C6 counterexample.  The claim says every input with
`confidence ∉ (0,1)` fails with a configuration error and no sample size is
returned.  The code never validates the confidence level: at
`confidence = 0`, `corruption_rate = 1/2`, `total_blocks = 16` it runs
`ceil(log 1 / log (1/2)) = 0`, clamps, and returns sample size `0`. -/
theorem sample_size_invalid_confidence_returns_ok :
    calculate_sample_size 0 16 (1/2) = .ok 0 := by
  rw [calculate_sample_size]
  rw [if_neg (by norm_num), if_neg (by norm_num)]
  simp only [mathLog]
  rw [if_neg (by norm_num), if_neg (by norm_num)]
  show Except.ok _ = _
  rw [show (1:ℝ) - 0 = 1 by norm_num, Real.log_one]
  norm_num

/-- C6 amended.  Function `calculate_sample_size` fails exactly when
`corruption_rate ∉ (0,1)` (explicit check), `total_blocks ≤ 0` (explicit
check), or `confidence ≥ 1` (where `math.log(1 - confidence)` raises a domain
error); a confidence `≤ 0` is accepted and produces a sample size. -/
theorem sample_size_error_characterization
    (confidence_level corruption_rate : ℝ) (total_blocks : ℤ) :
    (∃ e, calculate_sample_size confidence_level total_blocks corruption_rate
        = .error e)
      ↔ (corruption_rate ≤ 0 ∨ 1 ≤ corruption_rate ∨ total_blocks ≤ 0
          ∨ 1 ≤ confidence_level) := by
  rw [calculate_sample_size]
  by_cases hc : corruption_rate ≤ 0 ∨ 1 ≤ corruption_rate
  · rw [if_pos hc]
    simp only [Except.error.injEq, exists_eq']
    tauto
  · rw [if_neg hc]
    push_neg at hc
    by_cases ht : total_blocks ≤ 0
    · rw [if_pos ht]
      simp only [Except.error.injEq, exists_eq']
      tauto
    · rw [if_neg ht]
      simp only [mathLog]
      by_cases hf : 1 - confidence_level ≤ 0
      · rw [if_pos hf]
        constructor
        · intro _; right; right; right; linarith
        · intro _; exact ⟨.mathDomainError, rfl⟩
      · rw [if_neg hf, if_neg (by linarith [hc.2])]
        constructor
        · rintro ⟨e, he⟩
          exact Except.noConfusion he
        · rintro (h | h | h | h)
          · linarith [hc.1]
          · linarith [hc.2]
          · omega
          · linarith

/-- C7 counterexample.  The claim says an out-of-range leaf index fails with an
`IndexOutOfRange` error.  Both implementations instead return the empty list as
an ordinary value: here, index 2 (and 5) of a 2-leaf tree. -/
theorem auth_path_out_of_range_returns_value :
    merkleBuildTree hashId ["a", "b"] = some [["ab"], ["a", "b"]]
    ∧ get_authentication_path_hashes [["ab"], ["a", "b"]] 2 2 = []
    ∧ get_authentication_path (standaloneBuildTree hashId ["a", "b"]) 2 5 = [] := by
  refine ⟨?_, rfl, ?_⟩
  · simp [merkleBuildTree, buildFromM, nextLevelM, hashId]
  · rw [get_authentication_path, if_pos (Or.inl (by omega))]

/-- C7 amended.  For every built tree and every `leaf_index ≥ leaf_count`, both
path extractors return the empty list (no error is raised). -/
theorem auth_path_out_of_range_empty (tree : List (List String))
    (leaf_count leaf_index : ℕ) (h : leaf_count ≤ leaf_index) :
    get_authentication_path_hashes tree leaf_count leaf_index = []
    ∧ get_authentication_path tree leaf_count leaf_index = [] := by
  constructor
  · rw [get_authentication_path_hashes, if_pos (Or.inl h)]
  · rw [get_authentication_path, if_pos (Or.inl h)]

/-- Witness for the amended C7. -/
theorem auth_path_out_of_range_empty_witness :
    2 ≤ 3
    ∧ get_authentication_path_hashes [["ab"], ["a", "b"]] 2 3 = []
    ∧ get_authentication_path [["ab"], ["a", "b"]] 2 3 = [] :=
  ⟨by decide, auth_path_out_of_range_empty [["ab"], ["a", "b"]] 2 3 (by decide)⟩

/-- C8.  For positive `total_blocks` the selection loop terminates (the result
does not depend on the fuel once it covers the `counter > total_blocks * 10`
break, which fires after at most `total_blocks * 10 + 1` iterations), stops as
soon as the set reaches `sample_size`, and returns a sorted duplicate-free
list of at most `sample_size` indices, all below `total_blocks`; it can return
fewer than `sample_size` (at `total_blocks = 1`, `sample_size = 2` the safety
bound leaves a single index), the shortfall being visible as the list's
length. -/
theorem select_loop_bounds (rnd : ℕ → ℕ) (total_blocks sample_size : ℕ)
    (h : 0 < total_blocks) :
    (select_indices rnd total_blocks sample_size).length ≤ sample_size
    ∧ (select_indices rnd total_blocks sample_size).Nodup
    ∧ List.Sorted (· ≤ ·) (select_indices rnd total_blocks sample_size)
    ∧ (∀ x ∈ select_indices rnd total_blocks sample_size, x < total_blocks)
    ∧ (∀ fuel counter sel, sample_size ≤ Finset.card sel →
        selectGo rnd total_blocks sample_size fuel counter sel = sel)
    ∧ (∀ f1 f2 counter sel, counter ≤ total_blocks * 10 →
        total_blocks * 10 + 1 ≤ counter + f1 →
        total_blocks * 10 + 1 ≤ counter + f2 →
        selectGo rnd total_blocks sample_size f1 counter sel
          = selectGo rnd total_blocks sample_size f2 counter sel)
    ∧ (select_indices (fun _ => 0) 1 2).length < 2 := by
  refine ⟨?_, ?_, ?_, ?_, ?_, ?_, ?_⟩
  · rw [select_indices, Finset.length_sort]
    exact selectGo_card rnd total_blocks sample_size _ 0 ∅ (by simp)
  · exact Finset.sort_nodup _ _
  · exact Finset.sort_sorted _ _
  · intro x hx
    rw [select_indices, Finset.mem_sort] at hx
    exact selectGo_mem_lt rnd total_blocks sample_size h _ 0 ∅ (by simp) x hx
  · intro fuel counter sel hcard
    exact selectGo_stop rnd total_blocks sample_size fuel counter sel hcard
  · intro f1 f2 counter sel hc h1 h2
    exact selectGo_fuel_agnostic rnd total_blocks sample_size f1 f2 counter sel hc h1 h2
  · rw [select_indices, show selectGo (fun _ => 0) 1 2 (1 * 10 + 1) 0 ∅ = {0} by decide,
      Finset.sort_singleton]
    decide

/-- Witness for C8. -/
theorem select_loop_bounds_witness :
    0 < 4
    ∧ ((select_indices (fun c => c) 4 1).length ≤ 1
    ∧ (select_indices (fun c => c) 4 1).Nodup
    ∧ List.Sorted (· ≤ ·) (select_indices (fun c => c) 4 1)
    ∧ (∀ x ∈ select_indices (fun c => c) 4 1, x < 4)
    ∧ (∀ fuel counter sel, 1 ≤ Finset.card sel →
        selectGo (fun c => c) 4 1 fuel counter sel = sel)
    ∧ (∀ f1 f2 counter sel, counter ≤ 4 * 10 →
        4 * 10 + 1 ≤ counter + f1 →
        4 * 10 + 1 ≤ counter + f2 →
        selectGo (fun c => c) 4 1 f1 counter sel
          = selectGo (fun c => c) 4 1 f2 counter sel)
    ∧ (select_indices (fun _ => 0) 1 2).length < 2) :=
  ⟨by decide, select_loop_bounds (fun c => c) 4 1 (by decide)⟩

/-- C9.  Block selection is a deterministic function of
`(total_blocks, user_id, upload_id, timestamp)` and the corruption-rate
configuration: two runs whose seed derivations agree on the derived
SHA-256 seed (in particular, two runs with identical inputs) return identical
selected index lists. -/
theorem select_random_blocks_deterministic {σ : Type}
    (sha256 sha256' : String → σ) (prng prng' : σ → ℕ → ℕ)
    (confidence_level corruption_rate : ℝ) (total_blocks : ℤ)
    (user_id upload_id audit_timestamp : String)
    (hdraw : ∀ c,
      prng (generate_cryptographic_seed sha256 user_id upload_id audit_timestamp) c
        = prng' (generate_cryptographic_seed sha256' user_id upload_id audit_timestamp) c) :
    select_random_blocks sha256 prng confidence_level total_blocks user_id upload_id
        corruption_rate audit_timestamp
      = select_random_blocks sha256' prng' confidence_level total_blocks user_id upload_id
        corruption_rate audit_timestamp := by
  have hfun : prng (generate_cryptographic_seed sha256 user_id upload_id audit_timestamp)
      = prng' (generate_cryptographic_seed sha256' user_id upload_id audit_timestamp) :=
    funext hdraw
  simp only [select_random_blocks, hfun]

/-- Witness for C9: identical oracles, identical identity inputs. -/
theorem select_random_blocks_deterministic_witness :
    select_random_blocks (σ := String) (fun s => s) (fun _ c => c) ((95:ℝ)/100) 16
        "user" "upload" ((5:ℝ)/100) "2024-01-01T00:00:00"
      = select_random_blocks (σ := String) (fun s => s) (fun _ c => c) ((95:ℝ)/100) 16
        "user" "upload" ((5:ℝ)/100) "2024-01-01T00:00:00" :=
  select_random_blocks_deterministic (fun s => s) (fun s => s) (fun _ c => c) (fun _ c => c)
    ((95:ℝ)/100) ((5:ℝ)/100) 16 "user" "upload" "2024-01-01T00:00:00" (fun c => rfl)

/-- C10.  Every proof object `generate_proof` actually returns has all its
constraints satisfied, `trace_length = len(auth_path) + 1`,
`constraint_count = 3 * len(auth_path)`, and its stored `root_hash` is the
caller's `expected_root`. -/
theorem generate_proof_invariants (H : String → String) (security_level : ℕ)
    (leaf_hash : String) (auth_path : List String) (leaf_index : ℕ)
    (expected_root : String) (p : SimpleSTARKProof)
    (h : generate_proof H security_level leaf_hash auth_path leaf_index expected_root
        = .ok p) :
    (∀ c ∈ p.proof_data.constraints, c.satisfied = true)
    ∧ p.proof_data.trace_length = auth_path.length + 1
    ∧ p.proof_data.constraint_count = 3 * auth_path.length
    ∧ p.root_hash = expected_root := by
  have hunfold : generate_proof H security_level leaf_hash auth_path leaf_index expected_root
      = (if ((generate_constraints
              (generate_execution_trace H leaf_hash auth_path leaf_index)).filter
                fun c => !c.satisfied).length ≠ 0 then
          .error (.constraintViolation
            ((generate_constraints
              (generate_execution_trace H leaf_hash auth_path leaf_index)).filter
                fun c => !c.satisfied).length)
         else if (match (generate_execution_trace H leaf_hash auth_path leaf_index).steps.getLast? with
                  | some s => s.parent_hash
                  | none => leaf_hash) ≠ expected_root then .error .rootMismatch
         else .ok ⟨leaf_hash, auth_path, expected_root, leaf_index,
            ⟨generate_execution_trace H leaf_hash auth_path leaf_index,
              generate_constraints (generate_execution_trace H leaf_hash auth_path leaf_index),
              security_level,
              (generate_execution_trace H leaf_hash auth_path leaf_index).steps.length + 1,
              (generate_constraints (generate_execution_trace H leaf_hash auth_path leaf_index)).length,
              2 ^ 64, 8, 32, 6,
              [H "commitment_0", H "commitment_1", H "commitment_2"]⟩⟩) := rfl
  rw [hunfold] at h
  split at h
  · exact absurd h (by simp)
  next hlen =>
    have hsat : ∀ c ∈ generate_constraints
        (generate_execution_trace H leaf_hash auth_path leaf_index),
        c.satisfied = true := by
      intro c hc
      have h0 : ((generate_constraints
          (generate_execution_trace H leaf_hash auth_path leaf_index)).filter
            (fun c => !c.satisfied)).length = 0 := by omega
      have hnil := List.length_eq_zero.mp h0
      have := List.filter_eq_nil_iff.mp hnil c hc
      simpa using this
    split at h
    · exact absurd h (by simp)
    · obtain rfl := Except.ok.inj h
      refine ⟨hsat, ?_, ?_, rfl⟩
      · simp only [generate_execution_trace]
        rw [traceLoop_length]
      · simp only [generate_constraints, generate_execution_trace]
        rw [constraintsLoop_length, traceLoop_length]

/-- Witness for C10: the succeeding call at leaf index 0 on the 2-leaf tree. -/
theorem generate_proof_invariants_witness :
    generate_proof hashId 128 "a" ["b"] 0 "ab" = .ok c10Proof
    ∧ ((∀ c ∈ c10Proof.proof_data.constraints, c.satisfied = true)
    ∧ c10Proof.proof_data.trace_length = ["b"].length + 1
    ∧ c10Proof.proof_data.constraint_count = 3 * ["b"].length
    ∧ c10Proof.root_hash = "ab") :=
  ⟨by with_unfolding_all rfl,
    generate_proof_invariants hashId 128 "a" ["b"] 0 "ab" c10Proof
      (by with_unfolding_all rfl)⟩
